import Mathlib

/-!
Verification of the task execution engine of `pkg/cluster/task`
(`Serial`, `Parallel`, `saveSteps`, `ComputeProgress`, rollback),
shallowly embedded from the Go sources.

Modelling conventions:
* Go `error` values are opaque to the engine; we model them as `Option Err`
  with `Err := String` (`none` = nil error, `some e` = non-nil error).
* A child task is seen by `Serial`/`Parallel` only through the `Task`
  interface: its `String()` description, the result of its `Execute`, the
  result of its `Rollback`, and (for `ComputeProgress` and the
  `isDisplayTask` type switch) its dynamic kind.  We therefore model a child
  as a record of those observables.
* Go integer division panics on a zero divisor; the execute loop of `Serial`
  divides by `len(s.inner)` inside the loop body.  The embedding returns
  `none` (panic) if that division would have a zero divisor, and `some r`
  otherwise.
* `log.Infof` calls are output-only and are not modelled.
* Ghost observations (which children ran, the successive values assigned to
  `s.Progress`) are returned alongside the final state so that theorems can
  speak about the order of events inside one `Execute` call.
-/

namespace TaskEngine

/-- Error values carried by Go `error`s; opaque to the engine. -/
abbrev Err := String

/-- Dynamic kind of a child task, as observed by the `isDisplayTask` type
switch and by `Serial.ComputeProgress`.

Modelled from the spec: the `StepDisplay` and `ParallelStepDisplay` struct
declarations are not among the sources; §4.4 describes them as decorators
holding a `prefix` label and a 0–100 `progress` value, and
`Serial.ComputeProgress` reads `sd.prefix`, `sd.progress`, `psd.prefix` and
`psd.inner.inner`.  For a `ParallelStepDisplay` child we record, for each
element of `psd.inner.inner`, `some (prefix, progress)` when that element is
a `StepDisplay` and `none` otherwise. -/
inductive Kind where
  | plain : Kind
  | serialK : Kind
  | parallelK : Kind
  | stepK (pfx : String) (progress : Nat) : Kind
  | parStepK (pfx : String) (sub : List (Option (String × Nat))) : Kind
deriving DecidableEq, Repr

/-- A child task as seen through the Go `Task` interface from its parent:
`desc` is `String()`, `execErr` the error returned by `Execute(ctx)`,
`rbErr` the error returned by `Rollback(ctx)`, and `kind` its dynamic type. -/
structure Task where
  desc : String
  execErr : Option Err
  rbErr : Option Err
  kind : Kind
deriving DecidableEq, Repr

/-- `isDisplayTask` (audit.go lines 331–345): type switch on the four
composite/display kinds. -/
def isDisplayTask (t : Task) : Bool :=
  match t.kind with
  | .serialK => true
  | .parallelK => true
  | .stepK _ _ => true
  | .parStepK _ _ => true
  | .plain => false

/-- The `Serial` struct (audit.go lines 312–321).  `startedTasks`,
`Progress`, `CurTaskSteps` and `Steps` are the mutable fields written during
`Execute`. -/
structure Serial where
  ignoreError : Bool
  hideDetailDisplay : Bool
  inner : List Task
  startedTasks : Nat
  Progress : Nat
  CurTaskSteps : List String
  Steps : List String
deriving DecidableEq, Repr

/-- The `Parallel` struct (audit.go lines 324–328). -/
structure Parallel where
  ignoreError : Bool
  hideDetailDisplay : Bool
  inner : List Task
deriving DecidableEq, Repr

/-- The status lines derived from a task description by `saveSteps`
(audit.go lines 379–385): split the description on newlines, drop blank
lines, and tag every remaining line with the status. -/
def stepLines (desc stepStatus : String) : List String :=
  ((desc.splitOn "\n").filter (fun l => l.trim ≠ "")).map
    (fun l => "- " ++ l ++ " ... " ++ stepStatus)

/-- `Serial.saveSteps` (audit.go lines 378–390).  Rebuilds `CurTaskSteps`
from the current task's description; on `"Done"` the lines are appended to
`Steps` and the per-child buffer is cleared. -/
def Serial.saveSteps (s : Serial) (curTaskDesc stepStatus : String) : Serial :=
  let cur := stepLines curTaskDesc stepStatus
  if stepStatus = "Done" then
    { s with Steps := s.Steps ++ cur, CurTaskSteps := [] }
  else
    { s with CurTaskSteps := cur }

/-- The provisional progress value computed at the top of each loop
iteration of `Serial.Execute` (audit.go lines 357–361):
`oneTaskPercentHalf := (100 / n) / 2`, bumped to `1` when zero, plus
`startedTasks * 100 / n`. -/
def provVal (n started : Nat) : Nat :=
  let oneTaskPercentHalf := (100 / n) / 2
  let oneTaskPercentHalf := if oneTaskPercentHalf = 0 then 1 else oneTaskPercentHalf
  started * 100 / n + oneTaskPercentHalf

/-- Result of one `Serial.Execute` call: the final struct state, the
returned error, and two ghost observations — how many children had their
`Execute` invoked, and the successive values assigned to `s.Progress`. -/
structure ExecResult where
  state : Serial
  err : Option Err
  execCount : Nat
  progressWrites : List Nat
deriving DecidableEq, Repr

/-- The loop of `Serial.Execute` (audit.go lines 348–375), recursing on the
remaining children `ts` while `n` stays fixed at `len(s.inner)`.  Returns
`none` when the Go code would panic (division by zero), which can only be
attempted when the loop body runs.  The `log.Infof` call guarded by
`isDisplayTask`/`hideDetailDisplay` produces output only and is not
modelled. -/
def serialLoop (ignoreError : Bool) (n : Nat) : List Task → Serial → Option ExecResult
  | [], s => some ⟨{ s with Progress := 100 }, none, 0, [100]⟩
  | t :: rest, s =>
    if n = 0 then
      none
    else
      let p := provVal n s.startedTasks
      let s1 := { s with Progress := p, startedTasks := s.startedTasks + 1 }
      let s2 := s1.saveSteps t.desc "Starting"
      let err := t.execErr
      if err.isSome && !ignoreError then
        some ⟨s2.saveSteps t.desc "Error", err, 1, [p]⟩
      else
        match serialLoop ignoreError n rest s2 with
        | none => none
        | some r => some ⟨r.state, r.err, r.execCount + 1, p :: r.progressWrites⟩

/-- `Serial.Execute` (audit.go lines 348–375). -/
def Serial.Execute (s : Serial) : Option ExecResult :=
  serialLoop s.ignoreError s.inner.length s.inner s

/-- The loop of `Serial.Rollback` (audit.go lines 393–402) runs over
`s.inner` in reverse index order; this helper consumes the already-reversed
list and also returns the ghost trace of children whose `Rollback` was
invoked, in call order. -/
def rollbackGo : List Task → Option Err × List Task
  | [] => (none, [])
  | t :: rest =>
    match t.rbErr with
    | some e => (some e, [t])
    | none =>
      let r := rollbackGo rest
      (r.1, t :: r.2)

/-- `Serial.Rollback` (audit.go lines 393–402): children are rolled back in
reverse insertion order, stopping at the first error. -/
def Serial.Rollback (s : Serial) : Option Err × List Task :=
  rollbackGo s.inner.reverse

/-- The status string rendered by the `handleStepDisplay` closure of
`Serial.ComputeProgress` (audit.go line 425): `"%s ... %d%%"`. -/
def stepFmt (pfx : String) (progress : Nat) : String :=
  pfx ++ " ... " ++ toString progress ++ "%"

/-- The `handleStepDisplay` closure of `Serial.ComputeProgress`
(audit.go lines 419–428), threading the captured counters
`(allStepsCount, finishedSteps)` explicitly. -/
def handleStepDisplay (af : Nat × Nat) (pfx : String) (progress : Nat) :
    (Nat × Nat) × String :=
  let all := af.1 + 1
  let fin := if progress = 100 then af.2 + 1 else af.2
  ((all, fin), if progress > 0 then stepFmt pfx progress else "")

/-- One iteration of the inner loop of `Serial.ComputeProgress` over
`psd.inner.inner` (audit.go lines 439–446): `StepDisplay` members go through
`handleStepDisplay` and non-empty lines are collected, other members are
skipped. -/
def psdStep (acc : List String × (Nat × Nat)) (it : Option (String × Nat)) :
    List String × (Nat × Nat) :=
  match it with
  | some pq =>
    let h := handleStepDisplay acc.2 pq.1 pq.2
    (if h.2 ≠ "" then acc.1 ++ [h.2] else acc.1, h.1)
  | none => acc

/-- The loop of `Serial.ComputeProgress` (audit.go lines 430–452), threading
`stepsStatus` and the counters `(allStepsCount, finishedSteps)`. -/
def cpLoop : List Task → List String → Nat × Nat → List String × (Nat × Nat)
  | [], status, af => (status, af)
  | t :: rest, status, af =>
    match t.kind with
    | .stepK pfx progress =>
      let r := handleStepDisplay af pfx progress
      let status := if r.2 ≠ "" then status ++ [r.2] else status
      cpLoop rest status r.1
    | .parStepK pfx sub =>
      let r := sub.foldl psdStep ([], af)
      let status := if r.1 ≠ [] then status ++ pfx :: r.1 else status
      cpLoop rest status r.2
    | _ => cpLoop rest status af

/-- `Serial.ComputeProgress` (audit.go lines 414–460). -/
def Serial.ComputeProgress (s : Serial) : List String × Nat :=
  let r := cpLoop s.inner [] (0, 0)
  let totalProgress := if r.2.1 > 0 then r.2.2 * 100 / r.2.1 else 0
  (r.1, totalProgress)

/-- The body of each goroutine spawned by `Parallel.Execute`
(audit.go lines 473–490), folded over the children in the order in which
the workers reach the mutex-guarded first-error update; also returns the
ghost trace of `(description, execute error)` pairs, one per worker. -/
def parallelRun (firstError : Option Err) (trace : List (String × Option Err)) :
    List Task → Option Err × List (String × Option Err)
  | [] => (firstError, trace)
  | t :: rest =>
    let err := t.execErr
    let firstError :=
      if err.isSome then (if firstError.isNone then err else firstError) else firstError
    parallelRun firstError (trace ++ [(t.desc, err)]) rest

/-- `Parallel.Execute` (audit.go lines 463–497).  One goroutine runs per
child and the wait group joins them all; `obs` lists the children in worker
completion order (the order in which the workers reach the critical
section), which a schedule makes some permutation of `pt.inner`. -/
def Parallel.Execute (pt : Parallel) (obs : List Task) :
    Option Err × List (String × Option Err) :=
  let r := parallelRun none [] obs
  (if pt.ignoreError then none else r.1, r.2)

/-- The body of each goroutine spawned by `Parallel.Rollback`
(audit.go lines 510–519), folded in worker completion order. -/
def parallelRollbackRun (firstError : Option Err) (trace : List (String × Option Err)) :
    List Task → Option Err × List (String × Option Err)
  | [] => (firstError, trace)
  | t :: rest =>
    let err := t.rbErr
    let firstError :=
      if err.isSome then (if firstError.isNone then err else firstError) else firstError
    parallelRollbackRun firstError (trace ++ [(t.desc, err)]) rest

/-- `Parallel.Rollback` (audit.go lines 500–524): same fan-out/fan-in as
`Execute` but calling `Rollback` on every child and returning the first
error unconditionally. -/
def Parallel.Rollback (_pt : Parallel) (obs : List Task) :
    Option Err × List (String × Option Err) :=
  parallelRollbackRun none [] obs

/-! ### Specification-side descriptions of the observable behaviour

The following definitions restate, directly from the specification's words,
what one `Serial.Execute` call is expected to observe; the run lemma below
proves that the embedded code realises them. -/

/-- Placeholder child used as the default of `List.getD`. -/
def defTask : Task := ⟨"", none, none, .plain⟩

/-- Number of children whose `Execute` is invoked during one
`Serial.Execute` call: all of them when errors are ignored, otherwise up to
and including the first failing child. -/
def execCountSpec (ignoreError : Bool) (ts : List Task) : Nat :=
  if ignoreError then ts.length
  else min ((ts.takeWhile fun t => t.execErr.isNone).length + 1) ts.length

/-- Error returned by one `Serial.Execute` call. -/
def firstErrSpec (ignoreError : Bool) (ts : List Task) : Option Err :=
  if ignoreError then none else ts.findSome? (·.execErr)

/-- Whether the child loop of `Serial.Execute` runs to the end (and hence
the final `Progress = 100` assignment is reached). -/
def finishedSpec (ignoreError : Bool) (ts : List Task) : Bool :=
  ignoreError || ts.all (·.execErr.isNone)

/-- Status lines that the specification expects `ComputeProgress` to render
for a single step: a line only when its progress is positive. -/
def stepLine? (pfx : String) (progress : Nat) : Option String :=
  if progress > 0 then some (stepFmt pfx progress) else none

/-- Lines contributed by the `StepDisplay` children nested in one
`ParallelStepDisplay`. -/
def subLines (sub : List (Option (String × Nat))) : List String :=
  sub.filterMap (fun it => it.bind fun pq => stepLine? pq.1 pq.2)

/-- Steps counted by `ComputeProgress` below one child: a `StepDisplay` is
one step, a `ParallelStepDisplay` contributes its nested `StepDisplay`
children, anything else contributes none. -/
def taskStepCount (t : Task) : Nat :=
  match t.kind with
  | .stepK _ _ => 1
  | .parStepK _ sub => (sub.filterMap id).length
  | _ => 0

/-- Steps counted as finished (`progress = 100`) below one child. -/
def taskFinCount (t : Task) : Nat :=
  match t.kind with
  | .stepK _ progress => if progress = 100 then 1 else 0
  | .parStepK _ sub => ((sub.filterMap id).filter fun pq => pq.2 = 100).length
  | _ => 0

/-- Total number of steps in a `Serial`'s child list. -/
def stepCount (ts : List Task) : Nat := (ts.map taskStepCount).sum

/-- Total number of finished steps in a `Serial`'s child list. -/
def finCount (ts : List Task) : Nat := (ts.map taskFinCount).sum

/-- Status-string list the specification expects from `ComputeProgress`:
one `"prefix ... NN%"` line per step with positive progress, and a
`ParallelStepDisplay` header exactly when one of its children produced a
line. -/
def specStatus : List Task → List String
  | [] => []
  | t :: rest =>
    (match t.kind with
      | .stepK pfx progress => (stepLine? pfx progress).toList
      | .parStepK pfx sub =>
        let ls := subLines sub
        if ls = [] then [] else pfx :: ls
      | _ => []) ++ specStatus rest

/-! ### Concrete fixtures used in witnesses and counterexamples -/

/-- A child task named "A" whose execute and rollback both succeed. -/
def childA : Task := ⟨"A", none, none, .plain⟩

/-- A child task named "B" whose execute fails with "disk full". -/
def childB : Task := ⟨"B", some "disk full", none, .plain⟩

/-- A child task named "C" whose execute and rollback both succeed. -/
def childC : Task := ⟨"C", none, none, .plain⟩

/-- A child task named "D" whose execute and rollback both succeed. -/
def childD : Task := ⟨"D", none, none, .plain⟩

/-- A child task named "Z" whose execute fails with "boom". -/
def childBoom : Task := ⟨"Z", some "boom", none, .plain⟩

/-- A child task named "X" whose rollback fails with "rbfail". -/
def childRbX : Task := ⟨"X", none, some "rbfail", .plain⟩

/-- A `Serial` as the `Builder` constructs it: mutable fields zeroed. -/
def freshSerial (ie : Bool) (ts : List Task) : Serial := ⟨ie, false, ts, 0, 0, [], []⟩

/-! ### Helper lemmas -/

theorem saveSteps_not_done (s : Serial) (d st : String) (h : st ≠ "Done") :
    s.saveSteps d st = { s with CurTaskSteps := stepLines d st } := by
  simp [Serial.saveSteps, h]

theorem saveSteps_starting (s : Serial) (d : String) :
    s.saveSteps d "Starting" = { s with CurTaskSteps := stepLines d "Starting" } :=
  saveSteps_not_done s d _ (by decide)

theorem saveSteps_error (s : Serial) (d : String) :
    s.saveSteps d "Error" = { s with CurTaskSteps := stepLines d "Error" } :=
  saveSteps_not_done s d _ (by decide)

theorem firstErrSpec_cons_continue {ie : Bool} {t : Task} {rest : List Task}
    (h : ie = true ∨ t.execErr = none) :
    firstErrSpec ie (t :: rest) = firstErrSpec ie rest := by
  rcases h with h | h
  · subst h; simp [firstErrSpec]
  · by_cases hie : ie
    · simp [firstErrSpec, hie]
    · simp [firstErrSpec, hie, List.findSome?_cons, h]

theorem execCountSpec_cons_continue {ie : Bool} {t : Task} {rest : List Task}
    (h : ie = true ∨ t.execErr = none) :
    execCountSpec ie (t :: rest) = execCountSpec ie rest + 1 := by
  rcases h with h | h
  · subst h; simp [execCountSpec]
  · by_cases hie : ie
    · simp [execCountSpec, hie]
    · simp [execCountSpec, hie, List.takeWhile_cons, h, Nat.succ_min_succ]

theorem finishedSpec_cons_continue {ie : Bool} {t : Task} {rest : List Task}
    (h : ie = true ∨ t.execErr = none) :
    finishedSpec ie (t :: rest) = finishedSpec ie rest := by
  rcases h with h | h
  · subst h; simp [finishedSpec]
  · simp [finishedSpec, h]

theorem execCountSpec_pos {ie : Bool} {ts : List Task} (h : ts ≠ []) :
    0 < execCountSpec ie ts := by
  cases ts with
  | nil => exact absurd rfl h
  | cons a l =>
    by_cases hie : ie
    · simp [execCountSpec, hie]
    · simp only [execCountSpec, hie, Bool.false_eq_true, if_false, List.length_cons]
      omega

theorem execCountSpec_le {ie : Bool} (ts : List Task) :
    execCountSpec ie ts ≤ ts.length := by
  by_cases hie : ie <;> simp [execCountSpec, hie]

theorem finishedSpec_false_ne_nil {ie : Bool} {ts : List Task}
    (h : finishedSpec ie ts = false) : ts ≠ [] := by
  intro h2
  subst h2
  simp [finishedSpec] at h

theorem range_map_shift {α : Type} (f : Nat → α) (k : Nat) :
    (List.range (k + 1)).map f = f 0 :: (List.range k).map (fun i => f (i + 1)) := by
  rw [List.range_succ_eq_map]
  simp [List.map_map, Function.comp]

/-- Full characterisation of one run of the `Serial.Execute` loop: it never
panics when the divisor is positive, and its returned error, number of
executed children, progress writes and final mutable fields are the
spec-side quantities. -/
theorem serialLoop_run (ie : Bool) (n : Nat) (hn : 0 < n) :
    ∀ (ts : List Task) (s : Serial), ∃ r, serialLoop ie n ts s = some r
      ∧ r.err = firstErrSpec ie ts
      ∧ r.execCount = execCountSpec ie ts
      ∧ r.progressWrites =
          (List.range r.execCount).map (fun i => provVal n (s.startedTasks + i))
            ++ (if finishedSpec ie ts then [100] else [])
      ∧ r.state.startedTasks = s.startedTasks + r.execCount
      ∧ r.state.Steps = s.Steps
      ∧ r.state.Progress =
          (if finishedSpec ie ts then 100
           else provVal n (s.startedTasks + (r.execCount - 1)))
      ∧ r.state.CurTaskSteps =
          (if ts.isEmpty then s.CurTaskSteps
           else stepLines ((ts.getD (execCountSpec ie ts - 1) defTask).desc)
                  (if (firstErrSpec ie ts).isNone then "Starting" else "Error")) := by
  intro ts
  induction ts with
  | nil =>
    intro s
    refine ⟨⟨{ s with Progress := 100 }, none, 0, [100]⟩, rfl, ?_, ?_, ?_, ?_, ?_, ?_, ?_⟩
    · simp [firstErrSpec]
    · simp [execCountSpec]
    · simp [finishedSpec]
    · simp
    · simp
    · simp [finishedSpec]
    · simp
  | cons t rest ih =>
    intro s
    have hne : n ≠ 0 := Nat.pos_iff_ne_zero.mp hn
    by_cases hc : (t.execErr.isSome && !ie) = true
    · -- stop branch: the child failed and errors are not ignored
      have hie : ie = false := by
        rcases Bool.and_eq_true_iff.mp hc with ⟨-, h2⟩
        simpa using h2
      obtain ⟨e, he⟩ : ∃ e, t.execErr = some e := by
        rcases Bool.and_eq_true_iff.mp hc with ⟨h1, -⟩
        exact Option.isSome_iff_exists.mp h1
      refine ⟨⟨{ s with Progress := provVal n s.startedTasks,
                        startedTasks := s.startedTasks + 1,
                        CurTaskSteps := stepLines t.desc "Error" },
               t.execErr, 1, [provVal n s.startedTasks]⟩, ?_, ?_, ?_, ?_, ?_, ?_, ?_, ?_⟩
      · simp only [serialLoop]
        rw [if_neg hne]
        simp [hc, saveSteps_starting, saveSteps_error]
      · simp [firstErrSpec, hie, List.findSome?_cons, he]
      · simp [execCountSpec, hie, List.takeWhile_cons, he]
      · simp [finishedSpec, hie, he, List.all_cons, List.range_succ]
      · simp
      · simp
      · simp [finishedSpec, hie, he, List.all_cons]
      · simp [execCountSpec, hie, List.takeWhile_cons, he, firstErrSpec, List.findSome?_cons]
    · -- continue branch: errors ignored or the child succeeded
      have hor : ie = true ∨ t.execErr = none := by
        cases hie : ie
        · right
          cases hx : t.execErr with
          | none => rfl
          | some e => rw [hie, hx] at hc; simp at hc
        · left; rfl
      obtain ⟨r', hr', herr', hec', hw', hst', hsteps', hprog', hcur'⟩ :=
        ih { s with Progress := provVal n s.startedTasks,
                    startedTasks := s.startedTasks + 1,
                    CurTaskSteps := stepLines t.desc "Starting" }
      refine ⟨⟨r'.state, r'.err, r'.execCount + 1,
               provVal n s.startedTasks :: r'.progressWrites⟩, ?_, ?_, ?_, ?_, ?_, ?_, ?_, ?_⟩
      · simp only [serialLoop]
        rw [if_neg hne]
        simp only [hc, Bool.false_eq_true, if_false, saveSteps_starting]
        rw [hr']
      · rw [firstErrSpec_cons_continue hor]; exact herr'
      · rw [execCountSpec_cons_continue hor, hec']
      · rw [finishedSpec_cons_continue hor, hw', hec']
        rw [range_map_shift (fun i => provVal n (s.startedTasks + i)) (execCountSpec ie rest)]
        simp only [Nat.add_zero, List.cons_append]
        congr 1
        congr 1
        apply List.map_congr_left
        intro i _
        have : s.startedTasks + 1 + i = s.startedTasks + (i + 1) := by omega
        rw [this]
      · simp only [hst']
        omega
      · simpa using hsteps'
      · rw [hprog', finishedSpec_cons_continue hor]
        by_cases hfin : finishedSpec ie rest = true
        · simp [hfin]
        · have hfin' : finishedSpec ie rest = false := by
            simpa using hfin
          have hrne : rest ≠ [] := finishedSpec_false_ne_nil hfin'
          have hpos : 0 < execCountSpec ie rest := execCountSpec_pos hrne
          rw [hec']
          simp only [hfin', Bool.false_eq_true, if_false]
          have h1 : s.startedTasks + 1 + (execCountSpec ie rest - 1)
              = s.startedTasks + (execCountSpec ie rest + 1 - 1) := by omega
          exact congrArg (provVal n) h1
      · rw [hcur', firstErrSpec_cons_continue hor, execCountSpec_cons_continue hor]
        cases rest with
        | nil =>
          simp [execCountSpec, firstErrSpec]
        | cons b l =>
          have hrne : (b :: l) ≠ [] := by simp
          have hpos : 0 < execCountSpec ie (b :: l) := execCountSpec_pos hrne
          obtain ⟨m, hm⟩ : ∃ m, execCountSpec ie (b :: l) = m + 1 :=
            ⟨_, (Nat.succ_pred_eq_of_pos hpos).symm⟩
          rw [hm]
          simp

theorem provVal_eq (n k : Nat) :
    provVal n k = k * 100 / n + (if (100 / n) / 2 = 0 then 1 else (100 / n) / 2) := rfl

theorem provVal_mono (n k : Nat) : provVal n k ≤ provVal n (k + 1) := by
  rw [provVal_eq, provVal_eq]
  have h : k * 100 / n ≤ (k + 1) * 100 / n :=
    Nat.div_le_div_right (Nat.mul_le_mul_right 100 (Nat.le_succ k))
  omega

theorem provVal_lt_100 {n k : Nat} (hn : n ≤ 99) (hk : k < n) : provVal n k < 100 := by
  have h0 : 0 < n := by omega
  have h1 : k * 100 / n ≤ (n - 1) * 100 / n :=
    Nat.div_le_div_right (Nat.mul_le_mul_right 100 (by omega))
  have h2 : ∀ m, m < 100 → 0 < m →
      (m - 1) * 100 / m + (if (100 / m) / 2 = 0 then 1 else (100 / m) / 2) ≤ 99 := by decide
  have h3 := h2 n (by omega) h0
  rw [provVal_eq]
  calc k * 100 / n + (if (100 / n) / 2 = 0 then 1 else (100 / n) / 2)
      ≤ (n - 1) * 100 / n + (if (100 / n) / 2 = 0 then 1 else (100 / n) / 2) :=
        Nat.add_le_add_right h1 _
    _ ≤ 99 := h3
    _ < 100 := by omega

theorem provVal_le_100 {n k : Nat} (hn : 0 < n) (hk : k < n) : provVal n k ≤ 100 := by
  by_cases h99 : n ≤ 99
  · exact Nat.le_of_lt (provVal_lt_100 h99 hk)
  · have hbig : 100 ≤ n := by omega
    have hd : 100 / n ≤ 1 := by
      calc 100 / n ≤ 100 / 100 := Nat.div_le_div_left hbig (by omega)
        _ = 1 := by norm_num
    have hz : (100 / n) / 2 = 0 := Nat.div_eq_of_lt (Nat.lt_succ_of_le hd)
    have hlt : k * 100 / n < 100 := by
      rw [Nat.div_lt_iff_lt_mul hn]
      calc k * 100 < n * 100 := (Nat.mul_lt_mul_right (by omega)).mpr hk
        _ = 100 * n := by ring
    rw [provVal_eq, if_pos hz]
    omega

theorem findSome?_append_none {α β : Type} {f : α → Option β} {pre : List α}
    (h : ∀ x ∈ pre, f x = none) (rest : List α) :
    (pre ++ rest).findSome? f = rest.findSome? f := by
  induction pre with
  | nil => simp
  | cons a l ihp =>
    have ha : f a = none := h a (by simp)
    simp only [List.cons_append, List.findSome?_cons, ha]
    exact ihp (fun x hx => h x (by simp [hx]))

theorem takeWhile_append_of_all {α : Type} {p : α → Bool} {pre : List α}
    (h : ∀ x ∈ pre, p x = true) {c : α} (hc : p c = false) (post : List α) :
    (pre ++ c :: post).takeWhile p = pre := by
  induction pre with
  | nil => simp [List.takeWhile_cons, hc]
  | cons a l ihp =>
    have ha : p a = true := h a (by simp)
    simp only [List.cons_append, List.takeWhile_cons, ha, if_true]
    rw [ihp (fun x hx => h x (by simp [hx]))]

theorem getD_append_length {α : Type} (pre : List α) (c : α)
    (post : List α) (d : α) : (pre ++ c :: post).getD pre.length d = c := by
  induction pre with
  | nil => simp
  | cons a l ihp => simpa using ihp

/-! ### Rollback lemmas -/

theorem rollbackGo_append_ok {xs : List Task} (h : ∀ x ∈ xs, x.rbErr = none)
    (rest : List Task) :
    rollbackGo (xs ++ rest) = ((rollbackGo rest).1, xs ++ (rollbackGo rest).2) := by
  induction xs with
  | nil => simp
  | cons a l ihp =>
    have ha : a.rbErr = none := h a (by simp)
    simp only [List.cons_append, rollbackGo, ha, List.append_eq]
    rw [ihp (fun x hx => h x (by simp [hx]))]

theorem rollbackGo_all_ok {xs : List Task} (h : ∀ x ∈ xs, x.rbErr = none) :
    rollbackGo xs = (none, xs) := by
  have h2 := rollbackGo_append_ok h []
  simpa [rollbackGo] using h2

/-! ### Parallel lemmas -/

theorem parallelRun_spec (obs : List Task) : ∀ (fe : Option Err) (tr : List (String × Option Err)),
    parallelRun fe tr obs =
      ((match fe with
        | some e => some e
        | none => obs.findSome? (·.execErr)),
       tr ++ obs.map (fun t => (t.desc, t.execErr))) := by
  induction obs with
  | nil =>
    intro fe tr
    cases fe <;> simp [parallelRun]
  | cons t rest ihp =>
    intro fe tr
    simp only [parallelRun]
    rw [ihp]
    cases fe with
    | some e => cases hx : t.execErr <;> simp [hx, List.findSome?_cons]
    | none => cases hx : t.execErr <;> simp [hx, List.findSome?_cons]

theorem parallelRollbackRun_spec (obs : List Task) :
    ∀ (fe : Option Err) (tr : List (String × Option Err)),
    parallelRollbackRun fe tr obs =
      ((match fe with
        | some e => some e
        | none => obs.findSome? (·.rbErr)),
       tr ++ obs.map (fun t => (t.desc, t.rbErr))) := by
  induction obs with
  | nil =>
    intro fe tr
    cases fe <;> simp [parallelRollbackRun]
  | cons t rest ihp =>
    intro fe tr
    simp only [parallelRollbackRun]
    rw [ihp]
    cases fe with
    | some e => cases hx : t.rbErr <;> simp [hx, List.findSome?_cons]
    | none => cases hx : t.rbErr <;> simp [hx, List.findSome?_cons]

/-! ### ComputeProgress lemmas -/

theorem stepFmt_ne_empty (pfx : String) (p : Nat) : stepFmt pfx p ≠ "" := by
  intro h
  have h2 := congrArg String.length h
  have h3 : (" ... " : String).length = 5 := rfl
  have h4 : ("%" : String).length = 1 := rfl
  have h5 : ("" : String).length = 0 := rfl
  simp only [stepFmt, String.length_append, h3, h4, h5] at h2
  omega

theorem psdFold_spec (sub : List (Option (String × Nat))) :
    ∀ (steps0 : List String) (a f : Nat),
    sub.foldl psdStep (steps0, (a, f)) =
      (steps0 ++ subLines sub,
       (a + (sub.filterMap id).length,
        f + ((sub.filterMap id).filter fun pq => pq.2 = 100).length)) := by
  induction sub with
  | nil =>
    intro steps0 a f
    simp [subLines]
  | cons it l ihp =>
    intro steps0 a f
    cases it with
    | none =>
      simp only [List.foldl_cons, psdStep]
      rw [ihp]
      simp [subLines]
    | some pq =>
      obtain ⟨q, pr⟩ := pq
      simp only [List.foldl_cons, psdStep, handleStepDisplay]
      by_cases hpr : pr > 0
      · rw [if_pos (by simpa [hpr] using stepFmt_ne_empty q pr)]
        rw [ihp]
        have hline : stepLine? q pr = some (stepFmt q pr) := by simp [stepLine?, hpr]
        by_cases h100 : pr = 100
        · subst h100
          simp [subLines, List.filterMap_cons, hline, List.filter_cons]
          try omega
        · simp [subLines, List.filterMap_cons, hline, List.filter_cons, h100]
          try omega
      · rw [if_neg (by simp [hpr])]
        rw [ihp]
        have hline : stepLine? q pr = none := by simp [stepLine?, hpr]
        have h100 : pr ≠ 100 := by omega
        simp [subLines, hline, List.filter_cons, h100]
        omega

theorem cpLoop_spec (ts : List Task) :
    ∀ (status : List String) (a f : Nat),
    cpLoop ts status (a, f) =
      (status ++ specStatus ts, (a + stepCount ts, f + finCount ts)) := by
  induction ts with
  | nil =>
    intro status a f
    simp [cpLoop, specStatus, stepCount, finCount]
  | cons t rest ihp =>
    intro status a f
    rcases hk : t.kind with _ | _ | _ | ⟨pfx, pr⟩ | ⟨pfx, sub⟩ <;>
      simp only [cpLoop, hk]
    · rw [ihp]
      simp [specStatus, hk, stepCount, finCount, taskStepCount, taskFinCount]
    · rw [ihp]
      simp [specStatus, hk, stepCount, finCount, taskStepCount, taskFinCount]
    · rw [ihp]
      simp [specStatus, hk, stepCount, finCount, taskStepCount, taskFinCount]
    · simp only [handleStepDisplay]
      by_cases hpr : pr > 0
      · rw [if_pos (by simpa [hpr] using stepFmt_ne_empty pfx pr)]
        rw [ihp]
        have hline : stepLine? pfx pr = some (stepFmt pfx pr) := by simp [stepLine?, hpr]
        by_cases h100 : pr = 100
        · subst h100
          simp [specStatus, hk, hline, stepCount, finCount, taskStepCount, taskFinCount]
          omega
        · simp [specStatus, hk, hline, stepCount, finCount, taskStepCount, taskFinCount, h100]
          omega
      · rw [if_neg (by simp [hpr])]
        rw [ihp]
        have hline : stepLine? pfx pr = none := by simp [stepLine?, hpr]
        have h100 : pr ≠ 100 := by omega
        simp [specStatus, hk, hline, stepCount, finCount, taskStepCount, taskFinCount, h100]
        omega
    · rw [psdFold_spec sub [] a f]
      simp only [List.nil_append]
      by_cases hls : subLines sub = []
      · rw [if_neg (by simp [hls])]
        rw [ihp]
        simp [specStatus, hk, hls, stepCount, finCount, taskStepCount, taskFinCount,
          subLines]
        refine ⟨?_, by omega, by omega⟩
        simpa [subLines] using hls
      · rw [if_pos (by simp [hls])]
        rw [ihp]
        simp [specStatus, hk, hls, stepCount, finCount, taskStepCount, taskFinCount]
        omega

/-! ### Chain lemmas for progress monotonicity -/

theorem chain_map_provVal (n m : Nat) :
    List.Chain' (· ≤ ·) ((List.range m).map (provVal n)) := by
  rw [List.chain'_map]
  cases m with
  | zero => simp
  | succ k =>
    rw [List.chain'_range_succ]
    intro i _
    exact provVal_mono n i

theorem chain_writes {n m : Nat} (hm : m ≤ n) (hn : 0 < n) (tail : List Nat)
    (htail : tail = [] ∨ tail = [100]) :
    List.Chain' (· ≤ ·) ((List.range m).map (provVal n) ++ tail) := by
  rw [List.chain'_append]
  refine ⟨chain_map_provVal n m, ?_, ?_⟩
  · rcases htail with h | h <;> simp [h]
  · intro x hx y hy
    rcases htail with h | h
    · subst h; simp at hy
    · subst h
      simp only [List.head?_cons, Option.mem_def, Option.some.injEq] at hy
      subst hy
      cases m with
      | zero => simp at hx
      | succ k =>
        rw [List.range_succ, List.map_append] at hx
        simp only [List.map_cons, List.map_nil, List.getLast?_concat,
          Option.mem_def, Option.some.injEq] at hx
        subst hx
        exact provVal_le_100 hn (by omega)

/-! ### Claims -/

/-- Claim C1: for every `Serial` with `ignoreError` false whose k-th child
is the first whose `Execute` returns an error, `Serial.Execute` records an
"Error" status line for that child (its per-child step buffer holds the
Error-tagged lines of the child's description), returns that same error,
and never executes children k+1..N (exactly the first k children execute). -/
theorem serial_execute_fail_fast (s : Serial) (pre : List Task) (c : Task)
    (post : List Task) (e : Err)
    (hie : s.ignoreError = false)
    (hinner : s.inner = pre ++ c :: post)
    (hpre : ∀ x ∈ pre, x.execErr = none)
    (hc : c.execErr = some e) :
    ∃ r, s.Execute = some r
      ∧ r.err = some e
      ∧ r.execCount = pre.length + 1
      ∧ r.state.CurTaskSteps = stepLines c.desc "Error" := by
  have hn : 0 < s.inner.length := by rw [hinner]; simp
  obtain ⟨r, hr, herr, hec, -, -, -, -, hcur⟩ :=
    serialLoop_run s.ignoreError s.inner.length hn s.inner s
  have hfe : firstErrSpec s.ignoreError s.inner = some e := by
    rw [firstErrSpec, hie, if_neg (by simp), hinner,
      findSome?_append_none (f := fun x : Task => x.execErr) hpre (c :: post)]
    simp [List.findSome?_cons, hc]
  have hecs : execCountSpec s.ignoreError s.inner = pre.length + 1 := by
    rw [execCountSpec, hie, if_neg (by simp), hinner]
    rw [takeWhile_append_of_all (p := fun x : Task => x.execErr.isNone)
      (fun x hx => by simp [hpre x hx]) (by simp [hc]) post]
    simp only [List.length_append, List.length_cons]
    omega
  refine ⟨r, hr, ?_, ?_, ?_⟩
  · rw [herr, hfe]
  · rw [hec, hecs]
  · rw [hcur, if_neg (by rw [hinner]; simp), hecs, hfe, hinner]
    simp only [Nat.add_sub_cancel, Option.isNone_some, Bool.false_eq_true, if_false]
    rw [getD_append_length]

/-- Claim C1 witness: `Serial [A ok, B fails "disk full", C ok]` with
`ignoreError` false returns "disk full", executes exactly two children, and
its per-child buffer holds B's Error line. -/
theorem serial_execute_fail_fast_witness :
    (∀ x ∈ [childA], x.execErr = none) ∧
    ∃ r, (freshSerial false [childA, childB, childC]).Execute = some r
      ∧ r.err = some "disk full"
      ∧ r.execCount = 2
      ∧ r.state.CurTaskSteps = stepLines childB.desc "Error" := by
  refine ⟨by decide, ?_⟩
  have h := serial_execute_fail_fast (freshSerial false [childA, childB, childC])
      [childA] childB [childC] "disk full" rfl rfl (by decide) rfl
  simpa using h

/-- Claim C2 (code-bug evidence): a `Serial` of one succeeding child "A"
returns success and final `Progress` 100, but the accumulated step log
`Steps` stays empty — `Serial.Execute` never calls `saveSteps` with "Done"
(the "Done" branch of `saveSteps` is unreachable from `Execute`), so the
log does not contain the claimed N "Done"-tagged blocks. -/
theorem serial_execute_no_done_steps :
    ∃ r, (freshSerial false [childA]).Execute = some r
      ∧ r.err = none
      ∧ r.state.Progress = 100
      ∧ r.execCount = 1
      ∧ r.state.Steps = [] := ⟨_, rfl, rfl, rfl, rfl, rfl⟩

/-- Claim C3: for every `Serial` with `ignoreError` true, `Execute` runs
every child exactly once, returns nil, and sets final `Progress` to 100. -/
theorem serial_execute_ignore_error (s : Serial) (hie : s.ignoreError = true) :
    ∃ r, s.Execute = some r
      ∧ r.err = none
      ∧ r.execCount = s.inner.length
      ∧ r.state.Progress = 100 := by
  rcases hinner : s.inner with _ | ⟨t, rest⟩
  · refine ⟨⟨{ s with Progress := 100 }, none, 0, [100]⟩, ?_, rfl,
      by rw [hinner]; rfl, rfl⟩
    show serialLoop s.ignoreError s.inner.length s.inner s = _
    conv_lhs => rw [hinner]
    rfl
  · have hn : 0 < s.inner.length := by rw [hinner]; simp
    obtain ⟨r, hr, herr, hec, -, -, -, hprog, -⟩ :=
      serialLoop_run s.ignoreError s.inner.length hn s.inner s
    refine ⟨r, hr, ?_, ?_, ?_⟩
    · rw [herr, firstErrSpec, hie]
      simp
    · rw [hec, execCountSpec, hie]
      simp [hinner]
    · rw [hprog, finishedSpec, hie]
      simp

/-- Claim C3 witness: both children fail but `ignoreError` is true, so the
run returns nil, executes both children, and ends at progress 100. -/
theorem serial_execute_ignore_error_witness :
    (freshSerial true [childB, childBoom]).ignoreError = true ∧
    ∃ r, (freshSerial true [childB, childBoom]).Execute = some r
      ∧ r.err = none
      ∧ r.execCount = 2
      ∧ r.state.Progress = 100 := by
  refine ⟨rfl, ?_⟩
  have h := serial_execute_ignore_error (freshSerial true [childB, childBoom]) rfl
  simpa using h

/-- Claim C4 counterexample: the claim says the provisional progress before
the k-th child uses `started` *including* the current child, i.e. the first
write of a 2-child Serial would be `1*100/2 + 25 = 75`; the code reads
`startedTasks` before incrementing it, so the first write is
`0*100/2 + 25 = 25`. -/
theorem serial_progress_claimed_formula_counterexample :
    ∃ r, (freshSerial false [childA, childC]).Execute = some r
      ∧ r.progressWrites.getD 0 0 = 25
      ∧ provVal 2 1 = 75
      ∧ r.progressWrites.getD 0 0 ≠ provVal 2 1 :=
  ⟨_, rfl, rfl, rfl, by decide⟩

/-- Claim C4 (amended): during `Serial.Execute` on a freshly built Serial,
the progress value written immediately before the (k+1)-st child runs is
`k*100/N + max(1, (100/N)/2)` where `k` is the number of children begun
*before* the current one (the counter is read before being incremented). -/
theorem serial_progress_formula_amended (s : Serial) (h0 : s.startedTasks = 0) :
    ∃ r, s.Execute = some r
      ∧ ∀ k, k < r.execCount →
          r.progressWrites.getD k 0 =
            k * 100 / s.inner.length +
              (if (100 / s.inner.length) / 2 = 0 then 1
               else (100 / s.inner.length) / 2) := by
  rcases hinner : s.inner with _ | ⟨t, rest⟩
  · refine ⟨⟨{ s with Progress := 100 }, none, 0, [100]⟩, ?_, ?_⟩
    · show serialLoop s.ignoreError s.inner.length s.inner s = _
      conv_lhs => rw [hinner]
      rfl
    · intro k hk
      exact absurd hk (by simp)
  · have hn : 0 < s.inner.length := by rw [hinner]; simp
    rw [← hinner]
    obtain ⟨r, hr, -, -, hw, -, -, -, -⟩ :=
      serialLoop_run s.ignoreError s.inner.length hn s.inner s
    refine ⟨r, hr, ?_⟩
    intro k hk
    rw [hw, h0, List.getD_eq_getElem?_getD,
      List.getElem?_append_left (by simpa using hk)]
    simp [List.getElem?_map, List.getElem?_range, hk, provVal_eq]

/-- Claim C4 witness: the amended formula instantiated on a fresh 2-child
Serial. -/
theorem serial_progress_formula_amended_witness :
    (freshSerial false [childA, childC]).startedTasks = 0 ∧
    ∃ r, (freshSerial false [childA, childC]).Execute = some r
      ∧ ∀ k, k < r.execCount →
          r.progressWrites.getD k 0 =
            k * 100 / (freshSerial false [childA, childC]).inner.length +
              (if (100 / (freshSerial false [childA, childC]).inner.length) / 2 = 0 then 1
               else (100 / (freshSerial false [childA, childC]).inner.length) / 2) :=
  ⟨rfl, serial_progress_formula_amended (freshSerial false [childA, childC]) rfl⟩

/-- Claim C5 counterexample: on a fresh 100-child Serial whose last child
fails, the progress value 100 is written *before* the last child runs, so
progress reaches 100 without full successful completion (the run even
returns the error "boom"). -/
theorem serial_progress_early_100_counterexample :
    ∃ r, (freshSerial false (List.replicate 99 childA ++ [childBoom])).Execute = some r
      ∧ r.err = some "boom"
      ∧ (100 : Nat) ∈ r.progressWrites := by
  have hn : 0 < (freshSerial false (List.replicate 99 childA ++ [childBoom])).inner.length := by
    simp [freshSerial]
  obtain ⟨r, hr, herr, hec, hw, -, -, -, -⟩ :=
    serialLoop_run (freshSerial false (List.replicate 99 childA ++ [childBoom])).ignoreError
      (freshSerial false (List.replicate 99 childA ++ [childBoom])).inner.length hn
      (freshSerial false (List.replicate 99 childA ++ [childBoom])).inner
      (freshSerial false (List.replicate 99 childA ++ [childBoom]))
  have hec' : r.execCount = 100 := by
    rw [hec]
    show execCountSpec false (List.replicate 99 childA ++ [childBoom]) = 100
    rw [execCountSpec, if_neg (by simp)]
    rw [takeWhile_append_of_all (p := fun x : Task => x.execErr.isNone)
      (fun x hx => by rw [List.eq_of_mem_replicate hx]; rfl) (by rfl) []]
    simp
  refine ⟨r, hr, ?_, ?_⟩
  · rw [herr]
    show firstErrSpec false (List.replicate 99 childA ++ [childBoom]) = some "boom"
    rw [firstErrSpec, if_neg (by simp)]
    rw [findSome?_append_none (f := fun x : Task => x.execErr)
      (fun x hx => by rw [List.eq_of_mem_replicate hx]; rfl) [childBoom]]
    rfl
  · rw [hw]
    apply List.mem_append_left
    rw [hec']
    refine List.mem_map.mpr ⟨99, ?_, ?_⟩
    · simp
    · show provVal 100 (0 + 99) = 100
      decide

/-- Claim C5 (amended): during one `Execute` of a freshly built Serial the
progress writes are monotonically non-decreasing; and provided the Serial
has at most 99 children, every provisional (pre-child) write stays below
100, so 100 is only reached by the final assignment after all children
succeeded.  (With 100 or more children the provisional value can already
equal 100 before the last children finish, see the counterexample.) -/
theorem serial_progress_monotone_amended (s : Serial) (h0 : s.startedTasks = 0) :
    ∃ r, s.Execute = some r
      ∧ List.Chain' (· ≤ ·) r.progressWrites
      ∧ (s.inner.length ≤ 99 →
          ∀ k, k < r.execCount → r.progressWrites.getD k 0 < 100) := by
  rcases hinner : s.inner with _ | ⟨t, rest⟩
  · refine ⟨⟨{ s with Progress := 100 }, none, 0, [100]⟩, ?_, ?_, ?_⟩
    · show serialLoop s.ignoreError s.inner.length s.inner s = _
      conv_lhs => rw [hinner]
      rfl
    · simp
    · intro _ k hk
      exact absurd hk (by simp)
  · have hn : 0 < s.inner.length := by rw [hinner]; simp
    rw [← hinner]
    obtain ⟨r, hr, -, hec, hw, -, -, -, -⟩ :=
      serialLoop_run s.ignoreError s.inner.length hn s.inner s
    have hwrites : r.progressWrites =
        (List.range r.execCount).map (provVal s.inner.length)
          ++ (if finishedSpec s.ignoreError s.inner then [100] else []) := by
      rw [hw, h0]
      congr 1
      apply List.map_congr_left
      intro i _
      simp
    have hecle : r.execCount ≤ s.inner.length := by
      rw [hec]
      exact execCountSpec_le s.inner
    refine ⟨r, hr, ?_, ?_⟩
    · rw [hwrites]
      refine chain_writes hecle hn _ ?_
      by_cases hfin : finishedSpec s.ignoreError s.inner = true
      · right; rw [if_pos hfin]
      · left; rw [if_neg hfin]
    · intro h99 k hk
      have hgd : r.progressWrites.getD k 0 = provVal s.inner.length k := by
        rw [hwrites, List.getD_eq_getElem?_getD,
          List.getElem?_append_left (by simpa using hk)]
        simp [List.getElem?_map, List.getElem?_range, hk]
      rw [hgd]
      exact provVal_lt_100 h99 (lt_of_lt_of_le hk hecle)

/-- Claim C5 witness: the amended statement instantiated on a fresh 2-child
Serial. -/
theorem serial_progress_monotone_amended_witness :
    (freshSerial false [childA, childC]).startedTasks = 0 ∧
    ∃ r, (freshSerial false [childA, childC]).Execute = some r
      ∧ List.Chain' (· ≤ ·) r.progressWrites
      ∧ ((freshSerial false [childA, childC]).inner.length ≤ 99 →
          ∀ k, k < r.execCount → r.progressWrites.getD k 0 < 100) :=
  ⟨rfl, serial_progress_monotone_amended (freshSerial false [childA, childC]) rfl⟩

/-- Claim C6: `Serial.Rollback` walks all constructed children in exactly
reverse insertion order, independently of any execution state (it reads
only the child list); if the rollback of child `c` fails while all the
children after it roll back cleanly, it returns that error at once and the
children before `c` (lower original index) are never rolled back — the
rollback trace is exactly `post.reverse ++ [c]`. -/
theorem serial_rollback_reverse (s : Serial) :
    ((∀ x ∈ s.inner, x.rbErr = none) → s.Rollback = (none, s.inner.reverse))
    ∧ (∀ (pre : List Task) (c : Task) (post : List Task) (e : Err),
        s.inner = pre ++ c :: post →
        (∀ x ∈ post, x.rbErr = none) →
        c.rbErr = some e →
        s.Rollback = (some e, post.reverse ++ [c])) := by
  constructor
  · intro h
    show rollbackGo s.inner.reverse = _
    rw [rollbackGo_all_ok (fun x hx => h x (List.mem_reverse.mp hx))]
  · intro pre c post e hinner hpost hc
    show rollbackGo s.inner.reverse = _
    rw [hinner, List.reverse_append, List.reverse_cons, List.append_assoc,
      List.singleton_append]
    rw [rollbackGo_append_ok (fun x hx => hpost x (List.mem_reverse.mp hx))
      (c :: pre.reverse)]
    simp [rollbackGo, hc]

/-- Claim C6 witness: in `[A, C, X, D]` where X's rollback fails, rollback
runs D then X, returns "rbfail", and never reaches C or A. -/
theorem serial_rollback_reverse_witness :
    (freshSerial false [childA, childC, childRbX, childD]).Rollback
      = (some "rbfail", [childD, childRbX]) := by
  have h := (serial_rollback_reverse (freshSerial false [childA, childC, childRbX, childD])).2
      [childA, childC] childRbX [childD] "rbfail" rfl (by decide) rfl
  simpa using h

/-- Claim C7: `Parallel.Execute` runs every child exactly once whatever any
sibling does (the execution trace is a permutation of the children), waits
for all workers (`obs` ranges over completion orders of all `N` workers),
and returns nil when `ignoreError` is set, else the first error in
completion order (nil when no child failed); later errors are dropped. -/
theorem parallel_execute_first_error (pt : Parallel) (obs : List Task)
    (hobs : obs.Perm pt.inner) :
    (pt.Execute obs).1
        = (if pt.ignoreError then none else obs.findSome? (·.execErr))
    ∧ (pt.Execute obs).2.Perm (pt.inner.map (fun t => (t.desc, t.execErr))) := by
  unfold Parallel.Execute
  rw [parallelRun_spec]
  exact ⟨rfl, by simpa using hobs.map (fun t => (t.desc, t.execErr))⟩

/-- Claim C7 witness: three children of which one fails, observed in
reversed completion order: the single error is returned and all three
children report as having run. -/
theorem parallel_execute_first_error_witness :
    List.Perm [childC, childB, childA] [childA, childB, childC] ∧
    ((⟨false, false, [childA, childB, childC]⟩ : Parallel).Execute
        [childC, childB, childA]).1 = some "disk full"
    ∧ ((⟨false, false, [childA, childB, childC]⟩ : Parallel).Execute
        [childC, childB, childA]).2.Perm
        ([childA, childB, childC].map (fun t => (t.desc, t.execErr))) := by
  have hperm : List.Perm [childC, childB, childA] [childA, childB, childC] := by decide
  have h := parallel_execute_first_error ⟨false, false, [childA, childB, childC]⟩
      [childC, childB, childA] hperm
  refine ⟨hperm, ?_, h.2⟩
  rw [h.1]
  rfl

/-- Claim C8: `Parallel.Rollback` rolls back every child no matter how its
execute went (the rollback trace is a permutation of all children), waits
for all branches, and returns the first rollback error in completion order
(nil if none) — unconditionally, even when `ignoreError` is set. -/
theorem parallel_rollback_first_error (pt : Parallel) (obs : List Task)
    (hobs : obs.Perm pt.inner) :
    (pt.Rollback obs).1 = obs.findSome? (·.rbErr)
    ∧ (pt.Rollback obs).2.Perm (pt.inner.map (fun t => (t.desc, t.rbErr))) := by
  unfold Parallel.Rollback
  rw [parallelRollbackRun_spec]
  exact ⟨rfl, by simpa using hobs.map (fun t => (t.desc, t.rbErr))⟩

/-- Claim C8 witness: a child with failing rollback and a clean one,
observed cleanly first: rollback returns "rbfail" and both children report
as rolled back. -/
theorem parallel_rollback_first_error_witness :
    List.Perm [childA, childRbX] [childRbX, childA] ∧
    ((⟨true, false, [childRbX, childA]⟩ : Parallel).Rollback
        [childA, childRbX]).1 = some "rbfail"
    ∧ ((⟨true, false, [childRbX, childA]⟩ : Parallel).Rollback
        [childA, childRbX]).2.Perm
        ([childRbX, childA].map (fun t => (t.desc, t.rbErr))) := by
  have hperm : List.Perm [childA, childRbX] [childRbX, childA] := by decide
  have h := parallel_rollback_first_error ⟨true, false, [childRbX, childA]⟩
      [childA, childRbX] hperm
  refine ⟨hperm, ?_, h.2⟩
  rw [h.1]
  rfl

/-- Claim C9: `Serial.ComputeProgress` returns exactly the spec-side status
lines — a `"prefix ... NN%"` line per StepDisplay step with positive
progress (counting StepDisplay children nested one level inside a
ParallelStepDisplay), the ParallelStepDisplay header appearing exactly when
one of its children produced a line — and the overall percentage
`floor(F*100/M)` over the `M` counted steps of which `F` report exactly
100, with 0 when `M = 0`. -/
theorem serial_compute_progress_spec (s : Serial) :
    s.ComputeProgress =
      (specStatus s.inner,
       if stepCount s.inner = 0 then 0
       else finCount s.inner * 100 / stepCount s.inner) := by
  unfold Serial.ComputeProgress
  rw [cpLoop_spec s.inner [] 0 0]
  simp only [List.nil_append, Nat.zero_add]
  by_cases h : stepCount s.inner = 0
  · simp [h]
  · simp [h, Nat.pos_of_ne_zero h]

/-- Claim C10 counterexample: executing a Serial with an *empty* child list
is perfectly safe — the division by `len(s.inner)` sits inside the loop
body, which never runs, so no division by zero occurs (`none` would model
the Go panic) and `Execute` returns nil with progress 100. -/
theorem serial_execute_empty_no_panic :
    (freshSerial false []).Execute =
      some ⟨⟨false, false, [], 0, 100, [], []⟩, none, 0, [100]⟩ := rfl

/-- Claim C10 (amended): `Serial.Execute` is total for *every* Serial,
including one with no children: the division by `len(s.inner)` executes
only inside the loop body, where the child list is necessarily non-empty,
so the embedded panic case is unreachable. -/
theorem serial_execute_total (s : Serial) : s.Execute.isSome = true := by
  rcases hinner : s.inner with _ | ⟨t, rest⟩
  · show (serialLoop s.ignoreError s.inner.length s.inner s).isSome = true
    conv_lhs => rw [hinner]
    rfl
  · have hn : 0 < s.inner.length := by rw [hinner]; simp
    obtain ⟨r, hr, -, -, -, -, -, -, -⟩ :=
      serialLoop_run s.ignoreError s.inner.length hn s.inner s
    show (serialLoop s.ignoreError s.inner.length s.inner s).isSome = true
    rw [hr]
    rfl

end TaskEngine
